import Mathlib

/-!
Verification of the Moltblox flow-layout / pagination specification.

The repository script (src/moltblox_testnet_launch.py) is declarative content
handed to a flowable-document library; the spec describes the layout engine
that library supplies (style resolution, text measurement, block and table
layout, the flow/pagination engine, the page decorator hook).  The engine
itself is therefore not in the repository source and is modelled here from
the spec.  The script-level helpers `make_step` and `on_page` are in the
source and are embedded from it in the `Script` namespace below.
-/

set_option autoImplicit false

namespace Moltblox

/-- Modelled from the spec: a word of text together with its precomputed
glyph width (spec section 1: the core receives precomputed glyph-width
functions, so each word arrives with its width already computed). -/
structure Word where
  text : String
  width : Nat
deriving DecidableEq, Repr

/-- Modelled from the spec: a resolved style (spec section 3 and 4.1) —
concrete metrics after style resolution.  `leading` is the per-style line
height; `spaceWidth` is the precomputed width of the inter-word space for
this font and size. -/
structure RStyle where
  fontName : String
  fontSize : Nat
  leading : Nat
  spaceWidth : Nat
  padTop : Nat
  padBottom : Nat
deriving DecidableEq, Repr

/-- Modelled from the spec: one wrapped line produced by the Text Measurer
(spec 4.2): the words on the line, the line's width, and its height. -/
structure Line where
  words : List Word
  width : Nat
  height : Nat
deriving DecidableEq, Repr

/-- Modelled from the spec (4.2): greedy word wrap.  `cur` is the current
line under construction (reversed), `curW` its accumulated width; words are
accumulated while the next word still fits within `maxW`, otherwise the
current line is emitted and a new line starts with that word. -/
def wrapRec (maxW spaceW : Nat) (cur : List Word) (curW : Nat) :
    List Word → List (List Word × Nat)
  | [] => [(cur.reverse, curW)]
  | w :: ws =>
      if curW + spaceW + w.width ≤ maxW then
        wrapRec maxW spaceW (w :: cur) (curW + spaceW + w.width) ws
      else
        (cur.reverse, curW) :: wrapRec maxW spaceW [w] w.width ws

/-- Modelled from the spec (4.2): `measure(text, resolvedStyle, maxWidth)`.
The text arrives as a word list with precomputed widths; each produced
line's height is the style's leading value. -/
def measure (ws : List Word) (st : RStyle) (maxW : Nat) : List Line :=
  match ws with
  | [] => []
  | w :: rest =>
      (wrapRec maxW st.spaceWidth [w] w.width rest).map
        (fun p => ⟨p.1, p.2, st.leading⟩)

/-- The width a word list occupies on one line: word widths plus one
inter-word space between consecutive words. -/
def lineW (spaceW : Nat) (l : List Word) : Nat :=
  (l.map Word.width).sum + spaceW * (l.length - 1)

theorem lineW_reverse (spaceW : Nat) (l : List Word) :
    lineW spaceW l.reverse = lineW spaceW l := by
  simp [lineW, List.sum_reverse]

theorem wrapRec_join (maxW spaceW : Nat) :
    ∀ (ws cur : List Word) (curW : Nat),
      ((wrapRec maxW spaceW cur curW ws).map Prod.fst).flatten = cur.reverse ++ ws := by
  intro ws
  induction ws with
  | nil => intro cur curW; simp [wrapRec]
  | cons w rest ih =>
      intro cur curW
      by_cases h : curW + spaceW + w.width ≤ maxW
      · simp only [wrapRec, if_pos h]
        rw [ih]
        simp
      · simp only [wrapRec, if_neg h, List.map_cons, List.flatten_cons]
        rw [ih]
        simp

theorem wrapRec_head (maxW spaceW : Nat) :
    ∀ (ws cur : List Word) (curW : Nat),
      ∃ ext q, (wrapRec maxW spaceW cur curW ws).head? = some (cur.reverse ++ ext, q) := by
  intro ws
  induction ws with
  | nil =>
      intro cur curW
      exact ⟨[], curW, by simp [wrapRec]⟩
  | cons w rest ih =>
      intro cur curW
      by_cases h : curW + spaceW + w.width ≤ maxW
      · simp only [wrapRec, if_pos h]
        obtain ⟨ext, q, hq⟩ := ih (w :: cur) (curW + spaceW + w.width)
        refine ⟨w :: ext, q, ?_⟩
        rw [hq]
        simp
      · exact ⟨[], curW, by simp [wrapRec, if_neg h]⟩

theorem wrapRec_chain (maxW spaceW : Nat) :
    ∀ (ws cur : List Word) (curW : Nat),
      List.Chain' (fun a b => ∀ w ∈ b.1.head?, maxW < a.2 + spaceW + w.width)
        (wrapRec maxW spaceW cur curW ws) := by
  intro ws
  induction ws with
  | nil => intro cur curW; simp [wrapRec]
  | cons w rest ih =>
      intro cur curW
      by_cases h : curW + spaceW + w.width ≤ maxW
      · simp only [wrapRec, if_pos h]
        exact ih _ _
      · simp only [wrapRec, if_neg h]
        rw [List.chain'_cons']
        refine ⟨?_, ih _ _⟩
        intro y hy
        obtain ⟨ext, q, hq⟩ := wrapRec_head maxW spaceW rest [w] w.width
        rw [hq] at hy
        simp only [Option.mem_def, Option.some.injEq] at hy
        subst hy
        intro v hv
        simp only [List.reverse_cons, List.reverse_nil, List.nil_append,
          List.cons_append, List.head?_cons, Option.mem_def, Option.some.injEq] at hv
        subst hv
        omega

theorem wrapRec_lines (maxW spaceW : Nat) :
    ∀ (ws cur : List Word) (curW : Nat),
      cur ≠ [] →
      curW = lineW spaceW cur →
      (2 ≤ cur.length → curW ≤ maxW) →
      ∀ p ∈ wrapRec maxW spaceW cur curW ws,
        p.1 ≠ [] ∧ p.2 = lineW spaceW p.1 ∧ (2 ≤ p.1.length → p.2 ≤ maxW) := by
  intro ws
  induction ws with
  | nil =>
      intro cur curW hne hw hb p hp
      simp only [wrapRec, List.mem_singleton] at hp
      subst hp
      refine ⟨by simpa using hne, ?_, ?_⟩
      · simpa [lineW_reverse] using hw
      · intro h2
        exact hb (by simpa using h2)
  | cons w rest ih =>
      intro cur curW hne hw hb p hp
      by_cases h : curW + spaceW + w.width ≤ maxW
      · simp only [wrapRec, if_pos h] at hp
        refine ih (w :: cur) (curW + spaceW + w.width) (by simp) ?_ (fun _ => h) p hp
        obtain ⟨c, cs, rfl⟩ := List.exists_cons_of_ne_nil hne
        subst hw
        simp only [lineW, List.map_cons, List.sum_cons, List.length_cons,
          Nat.add_sub_cancel, Nat.mul_succ]
        ring
      · simp only [wrapRec, if_neg h, List.mem_cons] at hp
        rcases hp with hp | hp
        · subst hp
          refine ⟨by simpa using hne, ?_, ?_⟩
          · simpa [lineW_reverse] using hw
          · intro h2
            exact hb (by simpa using h2)
        · refine ih [w] w.width (by simp) (by simp [lineW]) (by simp) p hp

/-- Modelled from the spec (section 3, 4.3): a non-table content block —
Paragraph(text, style), Spacer(height), Rule(thickness, color).  The rule's
color and the spacer's width are irrelevant to layout height and are
omitted; the rule carries its vertical margin.  Table cells hold such
blocks (in the repository's documents cells contain only paragraphs and
spacers, never nested tables). -/
inductive Leaf where
  | paragraph (ws : List Word) (style : RStyle)
  | spacer (h : Nat)
  | rule (thickness vmargin : Nat)
deriving DecidableEq, Repr

/-- Modelled from the spec (section 3, 4.4): a table block — rows of cells,
each cell a list of nested blocks, fixed column widths, and the row's
vertical padding.  The repository's tables never mark a header row
repeatable, so header carrying is not modelled. -/
structure TableB where
  rows : List (List (List Leaf))
  columnWidths : List Nat
  vpad : Nat
deriving DecidableEq, Repr

/-- Modelled from the spec (section 3): the tagged ContentBlock variant
consumed by the Flow Engine. -/
inductive CBlock where
  | leaf (b : Leaf)
  | table (t : TableB)
  | pageBreak
deriving DecidableEq, Repr

/-- Modelled from the spec (section 6): page geometry — page size and the
four margins. -/
structure Geom where
  pageWidth : Nat
  pageHeight : Nat
  marginLeft : Nat
  marginRight : Nat
  marginTop : Nat
  marginBottom : Nat
deriving DecidableEq, Repr

/-- Available horizontal width of the content area. -/
def contentWidth (g : Geom) : Nat := g.pageWidth - (g.marginLeft + g.marginRight)

/-- Height of the page content area: page height minus top/bottom margins. -/
def contentHeight (g : Geom) : Nat := g.pageHeight - (g.marginTop + g.marginBottom)

/-- Modelled from the spec (4.3): Block Layout heights.  Paragraph: wrapped
line count times leading plus paddings; Spacer: its height; Rule: thickness
plus vertical margin. -/
def leafHeight (maxW : Nat) : Leaf → Nat
  | .paragraph ws st => (measure ws st maxW).length * st.leading + st.padTop + st.padBottom
  | .spacer h => h
  | .rule t m => t + m

/-- Horizontal extent of a leaf block (a spacer consumes zero width). -/
def leafWidth (g : Geom) : Leaf → Nat
  | .paragraph _ _ => contentWidth g
  | .spacer _ => 0
  | .rule _ _ => contentWidth g

/-- Modelled from the spec (4.4): a cell's height is the sum of its nested
blocks' heights at the cell's fixed column width. -/
def cellHeight (w : Nat) (cell : List Leaf) : Nat :=
  (cell.map (leafHeight w)).sum

/-- Modelled from the spec (4.4): a row's height is the maximum cell height
in the row plus the row's vertical padding. -/
def rowHeight (t : TableB) (row : List (List Leaf)) : Nat :=
  ((t.columnWidths.zip row).map (fun p => cellHeight p.1 p.2)).foldr Nat.max 0 + t.vpad

/-- The sequence of row heights of a table. -/
def rowHeights (t : TableB) : List Nat := t.rows.map (rowHeight t)

/-- Modelled from the spec (4.5 step 1): a block's laid-out height at the
page's available width. -/
def blockHeight (g : Geom) : CBlock → Nat
  | .leaf b => leafHeight (contentWidth g) b
  | .table t => (rowHeights t).sum
  | .pageBreak => 0

/-- Modelled from the spec (4.4, section 7): a table's configuration is
valid when its column widths sum to at most the available width; columns
are never auto-shrunk. -/
def configOk (g : Geom) : CBlock → Bool
  | .table t => decide (t.columnWidths.sum ≤ contentWidth g)
  | _ => true

/-- Whether a table block contains a row taller than a full page's content
area (the fatal `SplitError` condition of spec 4.4 / section 7). -/
def hasBigRow (g : Geom) : CBlock → Bool
  | .table t => (rowHeights t).any (fun r => decide (contentHeight g < r))
  | _ => false

/-- Modelled from the spec (section 3): the layout engine's output unit —
(x, y, width, height, originating ContentBlock reference).  `y` is the top
offset from the top of the page's content area; `ref` is the index of the
originating block in the input sequence. -/
structure PlacedBox where
  x : Nat
  y : Nat
  width : Nat
  height : Nat
  ref : Nat
deriving DecidableEq, Repr

/-- Modelled from the spec (section 3): a Page is its 1-based index plus an
ordered sequence of PlacedBoxes. -/
structure Page where
  index : Nat
  boxes : List PlacedBox
deriving DecidableEq, Repr

/-- Modelled from the spec (section 7): the fatal error taxonomy —
`ConfigurationError` (table column widths exceeding available width) and
`SplitError` (a table row taller than a full page), each identifying the
offending block by index.  `LayoutOverflowWarning` is non-fatal and is
recorded in the engine output instead. -/
inductive LayoutErr where
  | configError (blockIdx : Nat)
  | splitError (blockIdx : Nat)
deriving DecidableEq, Repr

/-- Engine output: the ordered page list plus the recorded
LayoutOverflowWarnings (indices of blocks taller than a page that were
forced onto dedicated pages). -/
structure EngineOut where
  pages : List Page
  warnings : List Nat
deriving DecidableEq, Repr

/-- Modelled from the spec (4.5): the flow cursor state —
(currentPageIndex, remainingHeight) kept here as the page index, the used
vertical extent `cursor` (so remainingHeight = contentHeight - cursor), the
boxes placed on the current page, the finished pages, and the recorded
overflow warnings. -/
structure FlowState where
  pageIndex : Nat
  cursor : Nat
  cur : List PlacedBox
  pages : List Page
  warnings : List Nat
deriving DecidableEq, Repr

/-- Place a box of the given width/height for block `ref` at the current
cursor and advance the cursor (spec 4.5 step 2). -/
def place (s : FlowState) (ref w h : Nat) : FlowState :=
  { s with cur := s.cur ++ [⟨0, s.cursor, w, h, ref⟩], cursor := s.cursor + h }

/-- Close the current page: emit it, reset the cursor to the top, and
advance the page index (spec 4.5 PageClosing). -/
def closePage (s : FlowState) : FlowState :=
  { s with pages := s.pages ++ [⟨s.pageIndex, s.cur⟩], cur := [], cursor := 0,
           pageIndex := s.pageIndex + 1 }

/-- Greedy row split (spec 4.4/4.5 step 3): the maximal prefix of rows
whose total height fits in `rem`, and the remainder. -/
def takeRows (rem : Nat) : List Nat → List Nat × List Nat
  | [] => ([], [])
  | h :: hs =>
      if h ≤ rem then
        let p := takeRows (rem - h) hs
        (h :: p.1, p.2)
      else
        ([], h :: hs)

/-- Modelled from the spec (4.5 step 3): place as many whole rows of a
table as fit on the current page, close the page, and continue the
remainder on the next page.  One PlacedBox is emitted per page portion;
`fuel` bounds the iteration count (2·rows+1 always suffices) so the
recursion is structural.  The interior `cursor = 0` branch is unreachable:
a row taller than a full page raises `SplitError` before splitting starts. -/
def splitGo (g : Geom) (w ref : Nat) : Nat → FlowState → List Nat → FlowState
  | _, s, [] => s
  | 0, s, _ => s
  | fuel + 1, s, r :: rs =>
      let p := takeRows (contentHeight g - s.cursor) (r :: rs)
      if p.1.isEmpty then
        if s.cursor = 0 then s
        else splitGo g w ref fuel (closePage s) (r :: rs)
      else
        let s1 := place s ref w p.1.sum
        if p.2.isEmpty then s1
        else splitGo g w ref fuel (closePage s1) p.2

/-- Modelled from the spec (4.5): the per-block transition rule of the Flow
Engine.  A fitting block is placed at the cursor; a non-fitting table is
split at row boundaries (fatal `SplitError` when a single row is taller
than a full page); a non-fitting, non-splittable block moves to a fresh
page, and when taller than a full page it is forced onto a dedicated page
with a recorded overflow warning; a PageBreak contributes a zero-height box
and closes the page regardless of remaining space. -/
def stepBlock (g : Geom) (i : Nat) (b : CBlock) (s : FlowState) :
    Except LayoutErr FlowState :=
  match b with
  | .pageBreak => .ok (closePage (place s i 0 0))
  | .leaf lb =>
      let h := leafHeight (contentWidth g) lb
      if s.cursor + h ≤ contentHeight g then
        .ok (place s i (leafWidth g lb) h)
      else if h ≤ contentHeight g then
        .ok (place (closePage s) i (leafWidth g lb) h)
      else
        let s1 := if s.cur.isEmpty then s else closePage s
        let s2 := closePage (place s1 i (leafWidth g lb) h)
        .ok { s2 with warnings := s2.warnings ++ [i] }
  | .table t =>
      let hs := rowHeights t
      if s.cursor + hs.sum ≤ contentHeight g then
        .ok (place s i t.columnWidths.sum hs.sum)
      else if hs.any (fun r => decide (contentHeight g < r)) then
        .error (.splitError i)
      else
        .ok (splitGo g t.columnWidths.sum i (2 * hs.length + 1) s hs)

/-- Flow the blocks in order, numbering them from `i` (spec 4.5). -/
def flowFrom (g : Geom) : Nat → List CBlock → FlowState → Except LayoutErr FlowState
  | _, [], s => .ok s
  | i, b :: rest, s =>
      match stepBlock g i b s with
      | .error e => .error e
      | .ok s1 => flowFrom g (i + 1) rest s1

/-- Index of the first block whose configuration is invalid, if any
(configuration errors are surfaced before any page is emitted, spec 7). -/
def firstBadConfig (g : Geom) : List CBlock → Option Nat
  | [] => none
  | b :: rest =>
      if configOk g b then (firstBadConfig g rest).map (· + 1) else some 0

/-- The initial flow state: page 1, empty, cursor at the top. -/
def initState : FlowState := ⟨1, 0, [], [], []⟩

/-- Modelled from the spec (4.5, section 7): a full pagination run — a pure
function from (geometry, block sequence) to a page list plus warnings, or a
fatal error.  Configuration is validated before any page is produced; the
final (possibly partial) page is closed unconditionally. -/
def paginate (g : Geom) (bs : List CBlock) : Except LayoutErr EngineOut :=
  match firstBadConfig g bs with
  | some i => .error (.configError i)
  | none =>
      match flowFrom g 0 bs initState with
      | .error e => .error e
      | .ok s => .ok ⟨s.pages ++ [⟨s.pageIndex, s.cur⟩], s.warnings⟩

/-- All boxes accumulated in a state, in placement order. -/
def allBoxes (s : FlowState) : List PlacedBox :=
  (s.pages.map Page.boxes).flatten ++ s.cur

/-- The concatenation, in page order then within-page order, of the
originating block references of all placed boxes of an engine output. -/
def allRefs (o : EngineOut) : List Nat :=
  ((o.pages.map Page.boxes).flatten).map PlacedBox.ref

/-- Collapse adjacent equal entries of a list (merging the adjacent
repeated references a split table leaves on consecutive pages). -/
def collapse : List Nat → List Nat
  | [] => []
  | [a] => [a]
  | a :: b :: t => if a = b then collapse (b :: t) else a :: collapse (b :: t)

/-- Total height of a box list. -/
def boxesH (bs : List PlacedBox) : Nat := (bs.map PlacedBox.height).sum

/-- The boxes are stacked gaplessly downward starting at offset `y`: each
box's top is the previous box's top plus its height. -/
def stackedFrom : Nat → List PlacedBox → Prop
  | _, [] => True
  | y, b :: bs => b.y = y ∧ stackedFrom (y + b.height) bs

theorem takeRows_join (rem : Nat) (l : List Nat) :
    (takeRows rem l).1 ++ (takeRows rem l).2 = l := by
  induction l generalizing rem with
  | nil => simp [takeRows]
  | cons h hs ih =>
      by_cases hle : h ≤ rem
      · simp [takeRows, hle, ih]
      · simp [takeRows, hle]

theorem takeRows_sum_le (rem : Nat) (l : List Nat) :
    (takeRows rem l).1.sum ≤ rem := by
  induction l generalizing rem with
  | nil => simp [takeRows]
  | cons h hs ih =>
      by_cases hle : h ≤ rem
      · simp only [takeRows, if_pos hle, List.sum_cons]
        have := ih (rem - h)
        omega
      · simp [takeRows, hle]

theorem takeRows_cons_of_le {rem h : Nat} (hs : List Nat) (hle : h ≤ rem) :
    (takeRows rem (h :: hs)).1 = h :: (takeRows (rem - h) hs).1 ∧
      (takeRows rem (h :: hs)).2 = (takeRows (rem - h) hs).2 := by
  simp [takeRows, hle]

theorem takeRows_snd_length {rem : Nat} {l : List Nat}
    (hne : (takeRows rem l).1 ≠ []) : (takeRows rem l).2.length < l.length := by
  have hj := takeRows_join rem l
  have := congrArg List.length hj
  simp only [List.length_append] at this
  have hpos : 0 < (takeRows rem l).1.length := List.length_pos.mpr hne
  omega

theorem collapse_const {i : Nat} :
    ∀ {ys : List Nat}, ys ≠ [] → (∀ y ∈ ys, y = i) → collapse ys = [i]
  | [], h, _ => absurd rfl h
  | [a], _, hall => by simp [collapse, hall a (by simp)]
  | a :: b :: t, _, hall => by
      have ha : a = i := hall a (by simp)
      have hb : b = i := hall b (by simp)
      have ht : collapse (b :: t) = [i] :=
        collapse_const (by simp) (fun y hy => hall y (List.mem_cons_of_mem a hy))
      show (if a = b then collapse (b :: t) else a :: collapse (b :: t)) = [i]
      rw [if_pos (ha.trans hb.symm), ht]

theorem collapse_append_const {i : Nat} :
    ∀ (xs : List Nat) {ys : List Nat}, ys ≠ [] → (∀ y ∈ ys, y = i) →
      (∀ x ∈ xs.getLast?, x ≠ i) → collapse (xs ++ ys) = collapse xs ++ [i]
  | [], ys, hne, hall, _ => by simp [collapse_const hne hall, collapse]
  | [a], ys, hne, hall, hlast => by
      obtain ⟨b, t, rfl⟩ := List.exists_cons_of_ne_nil hne
      have hb : b = i := hall b (by simp)
      have hai : a ≠ i := by
        have := hlast a (by simp)
        exact this
      have : collapse (a :: b :: t) = a :: collapse (b :: t) := by
        simp [collapse, hb ▸ hai]
      simpa [this, collapse, collapse_const hne hall]
  | a :: b :: t, ys, hne, hall, hlast => by
      have ih := collapse_append_const (b :: t) hne hall
        (by
          intro x hx
          apply hlast
          rwa [List.getLast?_cons_cons])
      have hcc : ∀ (u : List Nat),
          collapse (a :: b :: u) = if a = b then collapse (b :: u) else a :: collapse (b :: u) :=
        fun _ => rfl
      simp only [List.cons_append] at ih ⊢
      rw [hcc (t ++ ys), hcc t, ih]
      by_cases hab : a = b <;> simp [hab]

theorem allBoxes_place (s : FlowState) (ref w h : Nat) :
    allBoxes (place s ref w h) = allBoxes s ++ [⟨0, s.cursor, w, h, ref⟩] := by
  simp [allBoxes, place]

theorem allBoxes_closePage (s : FlowState) :
    allBoxes (closePage s) = allBoxes s := by
  simp [allBoxes, closePage]

theorem warnings_place (s : FlowState) (ref w h : Nat) :
    (place s ref w h).warnings = s.warnings := rfl

theorem warnings_closePage (s : FlowState) :
    (closePage s).warnings = s.warnings := rfl

theorem stackedFrom_cons {y : Nat} {b : PlacedBox} {bs : List PlacedBox} :
    stackedFrom y (b :: bs) ↔ b.y = y ∧ stackedFrom (y + b.height) bs := Iff.rfl

theorem stackedFrom_append {y : Nat} {xs ys : List PlacedBox} :
    stackedFrom y (xs ++ ys) ↔ stackedFrom y xs ∧ stackedFrom (y + boxesH xs) ys := by
  induction xs generalizing y with
  | nil => simp [stackedFrom, boxesH]
  | cons b bs ih =>
      rw [List.cons_append, stackedFrom_cons, stackedFrom_cons, ih, and_assoc]
      have : y + b.height + boxesH bs = y + boxesH (b :: bs) := by
        simp only [boxesH, List.map_cons, List.sum_cons]
        omega
      rw [this]

theorem stacked_le {y : Nat} {xs : List PlacedBox} (hst : stackedFrom y xs) :
    ∀ b ∈ xs, b.y + b.height ≤ y + boxesH xs := by
  induction xs generalizing y with
  | nil => simp
  | cons c cs ih =>
      obtain ⟨h1, h2⟩ := hst
      intro b hb
      simp only [boxesH, List.map_cons, List.sum_cons]
      rcases List.mem_cons.mp hb with rfl | hb
      · have : 0 ≤ (cs.map PlacedBox.height).sum := Nat.zero_le _
        omega
      · have := ih h2 b hb
        simp only [boxesH] at this
        omega

theorem stacked_chain {y : Nat} {xs : List PlacedBox} (hst : stackedFrom y xs) :
    List.Chain' (fun a b => a.y + a.height ≤ b.y) xs := by
  induction xs generalizing y with
  | nil => simp
  | cons c cs ih =>
      obtain ⟨h1, h2⟩ := hst
      rw [List.chain'_cons']
      refine ⟨?_, ih h2⟩
      intro b hb
      cases cs with
      | nil => simp at hb
      | cons d ds =>
          simp only [List.head?_cons, Option.mem_def, Option.some.injEq] at hb
          subst hb
          obtain ⟨hd, _⟩ := h2
          omega

theorem stacked_chain_lt {y : Nat} {xs : List PlacedBox} (hst : stackedFrom y xs)
    (hpos : ∀ b ∈ xs, 0 < b.height) :
    List.Chain' (fun a b => a.y < b.y) xs := by
  induction xs generalizing y with
  | nil => simp
  | cons c cs ih =>
      obtain ⟨h1, h2⟩ := hst
      rw [List.chain'_cons']
      refine ⟨?_, ih h2 (fun b hb => hpos b (List.mem_cons_of_mem c hb))⟩
      intro b hb
      cases cs with
      | nil => simp at hb
      | cons d ds =>
          simp only [List.head?_cons, Option.mem_def, Option.some.injEq] at hb
          subst hb
          obtain ⟨hd, _⟩ := h2
          have := hpos c (by simp)
          omega

theorem splitGo_nil (g : Geom) (w ref fuel : Nat) (s : FlowState) :
    splitGo g w ref fuel s [] = s := by
  cases fuel <;> rfl

theorem splitGo_zero (g : Geom) (w ref : Nat) (s : FlowState) (rows : List Nat) :
    splitGo g w ref 0 s rows = s := by
  cases rows <;> rfl

theorem splitGo_succ (g : Geom) (w ref fuel : Nat) (s : FlowState) (r : Nat)
    (rs : List Nat) :
    splitGo g w ref (fuel + 1) s (r :: rs) =
      (if ((takeRows (contentHeight g - s.cursor) (r :: rs)).1.isEmpty) then
        (if s.cursor = 0 then s
         else splitGo g w ref fuel (closePage s) (r :: rs))
      else
        (if ((takeRows (contentHeight g - s.cursor) (r :: rs)).2.isEmpty) then
          place s ref w (takeRows (contentHeight g - s.cursor) (r :: rs)).1.sum
         else
          splitGo g w ref fuel
            (closePage (place s ref w (takeRows (contentHeight g - s.cursor) (r :: rs)).1.sum))
            (takeRows (contentHeight g - s.cursor) (r :: rs)).2)) := rfl

theorem splitGo_boxes (g : Geom) (w ref : Nat) :
    ∀ (fuel : Nat) (rows : List Nat) (s : FlowState),
      (∀ r ∈ rows, r ≤ contentHeight g) →
      (rows ≠ [] →
        rows.length + 2 ≤ fuel ∨ (s.cursor = 0 ∧ rows.length + 1 ≤ fuel)) →
      ∃ (groups : List (List Nat)) (new : List PlacedBox),
        groups.flatten = rows ∧
        allBoxes (splitGo g w ref fuel s rows) = allBoxes s ++ new ∧
        new.map PlacedBox.height = groups.map List.sum ∧
        (∀ b ∈ new, b.ref = ref ∧ b.width = w) ∧
        (rows ≠ [] → new ≠ []) ∧
        (s.cursor ≤ contentHeight g →
          (splitGo g w ref fuel s rows).cursor ≤ contentHeight g) := by
  intro fuel
  induction fuel with
  | zero =>
      intro rows s hrows hfuel
      cases rows with
      | nil =>
          refine ⟨[], [], by simp, by simp [splitGo_nil], by simp, by simp, ?_, ?_⟩
          · intro h; exact absurd rfl h
          · intro h; simpa [splitGo_nil] using h
      | cons r rs =>
          have := hfuel (by simp)
          omega
  | succ fuel ih =>
      intro rows s hrows hfuel
      cases rows with
      | nil =>
          refine ⟨[], [], by simp, by simp [splitGo_nil], by simp, by simp, ?_, ?_⟩
          · intro h; exact absurd rfl h
          · intro h; simpa [splitGo_nil] using h
      | cons r rs =>
          rw [splitGo_succ]
          by_cases hp1 : (takeRows (contentHeight g - s.cursor) (r :: rs)).1.isEmpty
          · rw [if_pos hp1]
            by_cases hc : s.cursor = 0
            · exfalso
              have hr : r ≤ contentHeight g - s.cursor := by
                have := hrows r (by simp)
                omega
              have := (takeRows_cons_of_le rs hr).1
              rw [this] at hp1
              simp at hp1
            · rw [if_neg hc]
              have hf : (r :: rs).length + 1 ≤ fuel := by
                rcases hfuel (by simp) with h | h
                · omega
                · exact absurd h.1 hc
              obtain ⟨groups, new, h1, h2, h3, h4, h5, h6⟩ :=
                ih (r :: rs) (closePage s) hrows
                  (fun _ => Or.inr ⟨rfl, hf⟩)
              refine ⟨groups, new, h1, ?_, h3, h4, h5, ?_⟩
              · rwa [allBoxes_closePage] at h2
              · intro _
                exact h6 (by simp [closePage])
          · rw [if_neg hp1]
            have hsum := takeRows_sum_le (contentHeight g - s.cursor) (r :: rs)
            by_cases hp2 : (takeRows (contentHeight g - s.cursor) (r :: rs)).2.isEmpty
            · rw [if_pos hp2]
              have hjoin := takeRows_join (contentHeight g - s.cursor) (r :: rs)
              have hp2e : (takeRows (contentHeight g - s.cursor) (r :: rs)).2 = [] :=
                List.isEmpty_iff.mp hp2
              rw [hp2e, List.append_nil] at hjoin
              refine ⟨[(takeRows (contentHeight g - s.cursor) (r :: rs)).1],
                [⟨0, s.cursor, w, (takeRows (contentHeight g - s.cursor) (r :: rs)).1.sum, ref⟩],
                by simpa using hjoin, by rw [allBoxes_place], by simp, by simp, by simp, ?_⟩
              intro hcle
              simp only [place]
              omega
            · rw [if_neg hp2]
              have hmem : ∀ x ∈ (takeRows (contentHeight g - s.cursor) (r :: rs)).2,
                  x ≤ contentHeight g := by
                intro x hx
                apply hrows
                rw [← takeRows_join (contentHeight g - s.cursor) (r :: rs)]
                exact List.mem_append_right _ hx
              have hlen : (takeRows (contentHeight g - s.cursor) (r :: rs)).2.length <
                  (r :: rs).length :=
                takeRows_snd_length (by simpa using hp1)
              have hf2 : (takeRows (contentHeight g - s.cursor) (r :: rs)).2.length + 1 ≤ fuel := by
                rcases hfuel (by simp) with h | h <;> omega
              obtain ⟨groups, new, h1, h2, h3, h4, h5, h6⟩ :=
                ih (takeRows (contentHeight g - s.cursor) (r :: rs)).2
                  (closePage (place s ref w (takeRows (contentHeight g - s.cursor) (r :: rs)).1.sum))
                  hmem (fun _ => Or.inr ⟨rfl, hf2⟩)
              refine ⟨(takeRows (contentHeight g - s.cursor) (r :: rs)).1 :: groups,
                ⟨0, s.cursor, w, (takeRows (contentHeight g - s.cursor) (r :: rs)).1.sum, ref⟩ :: new,
                ?_, ?_, ?_, ?_, ?_, ?_⟩
              · simp only [List.flatten_cons, h1]
                exact takeRows_join _ _
              · rw [h2, allBoxes_closePage, allBoxes_place]
                simp
              · simp [h3]
              · intro b hb
                rcases List.mem_cons.mp hb with rfl | hb
                · exact ⟨rfl, rfl⟩
                · exact h4 b hb
              · intro _; simp
              · intro _
                exact h6 (by simp [closePage])

structure Inv2 (g : Geom) (s : FlowState) : Prop where
  pagesWF : ∀ p ∈ s.pages,
    stackedFrom 0 p.boxes ∧ ∀ b ∈ p.boxes, b.y + b.height ≤ contentHeight g
  curStacked : stackedFrom 0 s.cur
  cursorEq : s.cursor = boxesH s.cur
  cursorLe : s.cursor ≤ contentHeight g

theorem inv2_init (g : Geom) : Inv2 g initState := by
  refine ⟨?_, ?_, ?_, ?_⟩ <;> simp [initState, stackedFrom, boxesH]

theorem inv2_closePage {g : Geom} {s : FlowState} (h : Inv2 g s) :
    Inv2 g (closePage s) := by
  refine ⟨?_, ?_, ?_, ?_⟩
  · intro p hp
    simp only [closePage, List.mem_append, List.mem_singleton] at hp
    rcases hp with hp | rfl
    · exact h.pagesWF p hp
    · refine ⟨h.curStacked, ?_⟩
      intro b hb
      have := stacked_le h.curStacked b hb
      have h2 := h.cursorEq
      have h3 := h.cursorLe
      omega
  · simp [closePage, stackedFrom]
  · simp [closePage, boxesH]
  · simp [closePage]

theorem inv2_place {g : Geom} {s : FlowState} {ref w hgt : Nat} (h : Inv2 g s)
    (hfit : s.cursor + hgt ≤ contentHeight g) :
    Inv2 g (place s ref w hgt) := by
  refine ⟨?_, ?_, ?_, ?_⟩
  · intro p hp
    exact h.pagesWF p hp
  · simp only [place]
    rw [stackedFrom_append]
    refine ⟨h.curStacked, ?_⟩
    simp only [stackedFrom, Nat.zero_add]
    exact ⟨h.cursorEq, trivial⟩
  · simp only [place, boxesH, List.map_append, List.sum_append, List.map_cons,
      List.sum_cons, List.map_nil, List.sum_nil]
    have := h.cursorEq
    simp only [boxesH] at this
    omega
  · simpa [place] using hfit

theorem splitGo_inv2 (g : Geom) (w ref : Nat) :
    ∀ (fuel : Nat) (rows : List Nat) (s : FlowState),
      Inv2 g s → Inv2 g (splitGo g w ref fuel s rows) := by
  intro fuel
  induction fuel with
  | zero => intro rows s h; rwa [splitGo_zero]
  | succ fuel ih =>
      intro rows s h
      cases rows with
      | nil => rwa [splitGo_nil]
      | cons r rs =>
          rw [splitGo_succ]
          by_cases hp1 : (takeRows (contentHeight g - s.cursor) (r :: rs)).1.isEmpty
          · rw [if_pos hp1]
            by_cases hc : s.cursor = 0
            · rwa [if_pos hc]
            · rw [if_neg hc]
              exact ih _ _ (inv2_closePage h)
          · rw [if_neg hp1]
            have hsum := takeRows_sum_le (contentHeight g - s.cursor) (r :: rs)
            have hfit : s.cursor + (takeRows (contentHeight g - s.cursor) (r :: rs)).1.sum ≤
                contentHeight g := by
              have := h.cursorLe
              omega
            by_cases hp2 : (takeRows (contentHeight g - s.cursor) (r :: rs)).2.isEmpty
            · rw [if_pos hp2]
              exact inv2_place h hfit
            · rw [if_neg hp2]
              exact ih _ _ (inv2_closePage (inv2_place h hfit))

theorem stepBlock_pageBreak (g : Geom) (i : Nat) (s : FlowState) :
    stepBlock g i .pageBreak s = .ok (closePage (place s i 0 0)) := rfl

theorem stepBlock_leaf_fits {g : Geom} {i : Nat} {lb : Leaf} {s : FlowState}
    (h : s.cursor + leafHeight (contentWidth g) lb ≤ contentHeight g) :
    stepBlock g i (.leaf lb) s =
      .ok (place s i (leafWidth g lb) (leafHeight (contentWidth g) lb)) := by
  simp [stepBlock, h]

theorem stepBlock_leaf_fresh {g : Geom} {i : Nat} {lb : Leaf} {s : FlowState}
    (h1 : ¬ s.cursor + leafHeight (contentWidth g) lb ≤ contentHeight g)
    (h2 : leafHeight (contentWidth g) lb ≤ contentHeight g) :
    stepBlock g i (.leaf lb) s =
      .ok (place (closePage s) i (leafWidth g lb) (leafHeight (contentWidth g) lb)) := by
  simp [stepBlock, h1, h2]

theorem stepBlock_leaf_big {g : Geom} {i : Nat} {lb : Leaf} {s : FlowState}
    (h2 : contentHeight g < leafHeight (contentWidth g) lb) :
    stepBlock g i (.leaf lb) s =
      (let s1 := if s.cur.isEmpty then s else closePage s
       let s2 := closePage (place s1 i (leafWidth g lb) (leafHeight (contentWidth g) lb))
       .ok { s2 with warnings := s2.warnings ++ [i] }) := by
  have h1 : ¬ s.cursor + leafHeight (contentWidth g) lb ≤ contentHeight g := by omega
  have h2n : ¬ leafHeight (contentWidth g) lb ≤ contentHeight g := by omega
  simp [stepBlock, h1, h2n]

theorem stepBlock_table_fits {g : Geom} {i : Nat} {t : TableB} {s : FlowState}
    (h : s.cursor + (rowHeights t).sum ≤ contentHeight g) :
    stepBlock g i (.table t) s =
      .ok (place s i t.columnWidths.sum (rowHeights t).sum) := by
  simp [stepBlock, h]

theorem stepBlock_table_err {g : Geom} {i : Nat} {t : TableB} {s : FlowState}
    (h1 : ¬ s.cursor + (rowHeights t).sum ≤ contentHeight g)
    (h2 : (rowHeights t).any (fun r => decide (contentHeight g < r)) = true) :
    stepBlock g i (.table t) s = .error (.splitError i) := by
  simp [stepBlock, h1, h2]

theorem stepBlock_table_split {g : Geom} {i : Nat} {t : TableB} {s : FlowState}
    (h1 : ¬ s.cursor + (rowHeights t).sum ≤ contentHeight g)
    (h2 : (rowHeights t).any (fun r => decide (contentHeight g < r)) = false) :
    stepBlock g i (.table t) s =
      .ok (splitGo g t.columnWidths.sum i (2 * (rowHeights t).length + 1) s (rowHeights t)) := by
  simp [stepBlock, h1, h2]

theorem allBoxes_setWarnings (s : FlowState) (w : List Nat) :
    allBoxes { s with warnings := w } = allBoxes s := rfl

theorem stepBlock_new_boxes {g : Geom} {i : Nat} {b : CBlock} {s s' : FlowState}
    (hcur : s.cursor ≤ contentHeight g) (hok : stepBlock g i b s = .ok s') :
    ∃ new : List PlacedBox, new ≠ [] ∧ allBoxes s' = allBoxes s ++ new ∧
      (∀ x ∈ new, x.ref = i) ∧ s'.cursor ≤ contentHeight g := by
  cases b with
  | pageBreak =>
      rw [stepBlock_pageBreak] at hok
      obtain rfl : s' = closePage (place s i 0 0) := by
        cases hok; rfl
      refine ⟨[⟨0, s.cursor, 0, 0, i⟩], by simp, ?_, by simp, by simp [closePage]⟩
      rw [allBoxes_closePage, allBoxes_place]
  | leaf lb =>
      by_cases hfit : s.cursor + leafHeight (contentWidth g) lb ≤ contentHeight g
      · rw [stepBlock_leaf_fits hfit] at hok
        obtain rfl : s' = place s i (leafWidth g lb) (leafHeight (contentWidth g) lb) := by
          cases hok; rfl
        refine ⟨[⟨0, s.cursor, leafWidth g lb, leafHeight (contentWidth g) lb, i⟩],
          by simp, ?_, by simp, by simpa [place] using hfit⟩
        rw [allBoxes_place]
      · by_cases hle : leafHeight (contentWidth g) lb ≤ contentHeight g
        · rw [stepBlock_leaf_fresh hfit hle] at hok
          obtain rfl :
              s' = place (closePage s) i (leafWidth g lb) (leafHeight (contentWidth g) lb) := by
            cases hok; rfl
          refine ⟨[⟨0, (closePage s).cursor, leafWidth g lb, leafHeight (contentWidth g) lb, i⟩],
            by simp, ?_, by simp, ?_⟩
          · rw [allBoxes_place, allBoxes_closePage]
          · simpa [place, closePage] using hle
        · rw [stepBlock_leaf_big (by omega)] at hok
          obtain rfl : s' =
              (let s1 := if s.cur.isEmpty then s else closePage s
               let s2 := closePage (place s1 i (leafWidth g lb) (leafHeight (contentWidth g) lb))
               { s2 with warnings := s2.warnings ++ [i] }) := by
            cases hok; rfl
          refine ⟨[⟨0, (if s.cur.isEmpty then s else closePage s).cursor, leafWidth g lb,
            leafHeight (contentWidth g) lb, i⟩], by simp, ?_, by simp, by simp [closePage]⟩
          show allBoxes (closePage (place (if s.cur.isEmpty then s else closePage s) i _ _)) = _
          rw [allBoxes_closePage, allBoxes_place]
          by_cases hce : s.cur.isEmpty
          · rw [if_pos hce]
          · rw [if_neg hce, allBoxes_closePage]
  | table t =>
      by_cases hfit : s.cursor + (rowHeights t).sum ≤ contentHeight g
      · rw [stepBlock_table_fits hfit] at hok
        obtain rfl : s' = place s i t.columnWidths.sum (rowHeights t).sum := by
          cases hok; rfl
        refine ⟨[⟨0, s.cursor, t.columnWidths.sum, (rowHeights t).sum, i⟩],
          by simp, ?_, by simp, by simpa [place] using hfit⟩
        rw [allBoxes_place]
      · cases hany : (rowHeights t).any (fun r => decide (contentHeight g < r)) with
        | true => rw [stepBlock_table_err hfit hany] at hok; cases hok
        | false =>
            rw [stepBlock_table_split hfit hany] at hok
            obtain rfl : s' =
                splitGo g t.columnWidths.sum i (2 * (rowHeights t).length + 1) s
                  (rowHeights t) := by
              cases hok; rfl
            have hrows : ∀ r ∈ rowHeights t, r ≤ contentHeight g := by
              intro r hr
              have := List.any_eq_false.mp hany r hr
              simp only [decide_eq_true_eq] at this
              omega
            have hne : rowHeights t ≠ [] := by
              intro hnil
              rw [hnil] at hfit
              simp at hfit
              omega
            have hlen : 1 ≤ (rowHeights t).length := by
              cases h : rowHeights t with
              | nil => exact absurd h hne
              | cons a l => simp
            obtain ⟨groups, new, h1, h2, h3, h4, h5, h6⟩ :=
              splitGo_boxes g t.columnWidths.sum i (2 * (rowHeights t).length + 1)
                (rowHeights t) s hrows (fun _ => Or.inl (by omega))
            exact ⟨new, h5 hne, h2, fun x hx => (h4 x hx).1, h6 hcur⟩

theorem stepBlock_inv2 {g : Geom} {i : Nat} {b : CBlock} {s s' : FlowState}
    (h : Inv2 g s) (hb : blockHeight g b ≤ contentHeight g)
    (hok : stepBlock g i b s = .ok s') : Inv2 g s' := by
  cases b with
  | pageBreak =>
      rw [stepBlock_pageBreak] at hok
      obtain rfl : s' = closePage (place s i 0 0) := by cases hok; rfl
      exact inv2_closePage (inv2_place h (by have := h.cursorLe; omega))
  | leaf lb =>
      have hle : leafHeight (contentWidth g) lb ≤ contentHeight g := hb
      by_cases hfit : s.cursor + leafHeight (contentWidth g) lb ≤ contentHeight g
      · rw [stepBlock_leaf_fits hfit] at hok
        obtain rfl : s' = place s i (leafWidth g lb) (leafHeight (contentWidth g) lb) := by
          cases hok; rfl
        exact inv2_place h hfit
      · rw [stepBlock_leaf_fresh hfit hle] at hok
        obtain rfl :
            s' = place (closePage s) i (leafWidth g lb) (leafHeight (contentWidth g) lb) := by
          cases hok; rfl
        exact inv2_place (inv2_closePage h) (by simpa [closePage] using hle)
  | table t =>
      have hsle : (rowHeights t).sum ≤ contentHeight g := hb
      by_cases hfit : s.cursor + (rowHeights t).sum ≤ contentHeight g
      · rw [stepBlock_table_fits hfit] at hok
        obtain rfl : s' = place s i t.columnWidths.sum (rowHeights t).sum := by
          cases hok; rfl
        exact inv2_place h hfit
      · cases hany : (rowHeights t).any (fun r => decide (contentHeight g < r)) with
        | true => rw [stepBlock_table_err hfit hany] at hok; cases hok
        | false =>
            rw [stepBlock_table_split hfit hany] at hok
            obtain rfl : s' =
                splitGo g t.columnWidths.sum i (2 * (rowHeights t).length + 1) s
                  (rowHeights t) := by
              cases hok; rfl
            exact splitGo_inv2 g t.columnWidths.sum i _ _ s h

/-- The invariant carried through the flow for the reference-sequence
property: collapsing adjacent duplicates of the references placed so far
yields exactly the processed indices, all references are below the next
index, and the cursor is inside the content area. -/
def Inv1 (g : Geom) (k : Nat) (s : FlowState) : Prop :=
  collapse ((allBoxes s).map PlacedBox.ref) = List.range k ∧
  (∀ b ∈ allBoxes s, b.ref < k) ∧
  s.cursor ≤ contentHeight g

theorem inv1_init (g : Geom) : Inv1 g 0 initState := by
  refine ⟨?_, ?_, ?_⟩ <;> simp [initState, allBoxes, collapse]

theorem stepBlock_inv1 {g : Geom} {k : Nat} {b : CBlock} {s s' : FlowState}
    (h : Inv1 g k s) (hok : stepBlock g k b s = .ok s') : Inv1 g (k + 1) s' := by
  obtain ⟨hc, hm, hcur⟩ := h
  obtain ⟨new, hne, hab, href, hcur'⟩ := stepBlock_new_boxes hcur hok
  have hys : new.map PlacedBox.ref ≠ [] := by simpa using hne
  have hall : ∀ y ∈ new.map PlacedBox.ref, y = k := by
    intro y hy
    obtain ⟨x, hx, rfl⟩ := List.mem_map.mp hy
    exact href x hx
  have hlast : ∀ x ∈ ((allBoxes s).map PlacedBox.ref).getLast?, x ≠ k := by
    intro x hx
    obtain ⟨hxe, rfl⟩ := List.mem_getLast?_eq_getLast hx
    have hmem : ((allBoxes s).map PlacedBox.ref).getLast hxe ∈
        (allBoxes s).map PlacedBox.ref := List.getLast_mem hxe
    obtain ⟨bx, hbx, hb⟩ := List.mem_map.mp hmem
    rw [← hb]
    exact Nat.ne_of_lt (hm bx hbx)
  refine ⟨?_, ?_, hcur'⟩
  · rw [hab, List.map_append,
      collapse_append_const ((allBoxes s).map PlacedBox.ref) hys hall hlast,
      hc, List.range_succ]
  · intro x hx
    rw [hab] at hx
    rcases List.mem_append.mp hx with hx | hx
    · exact Nat.lt_succ_of_lt (hm x hx)
    · rw [href x hx]; exact Nat.lt_succ_self k

theorem flow_inv1 (g : Geom) :
    ∀ (bs : List CBlock) (k : Nat) (s s' : FlowState),
      Inv1 g k s → flowFrom g k bs s = .ok s' → Inv1 g (k + bs.length) s' := by
  intro bs
  induction bs with
  | nil =>
      intro k s s' h hok
      simp only [flowFrom] at hok
      cases hok
      simpa using h
  | cons b rest ih =>
      intro k s s' h hok
      cases hstep : stepBlock g k b s with
      | error e => simp [flowFrom, hstep] at hok
      | ok s1 =>
          simp only [flowFrom, hstep] at hok
          have h1 := stepBlock_inv1 h hstep
          have h2 := ih (k + 1) s1 s' h1 hok
          have : k + 1 + rest.length = k + (b :: rest).length := by simp; omega
          rwa [this] at h2

theorem flow_inv2 (g : Geom) :
    ∀ (bs : List CBlock) (k : Nat) (s s' : FlowState),
      (∀ b ∈ bs, blockHeight g b ≤ contentHeight g) →
      Inv2 g s → flowFrom g k bs s = .ok s' → Inv2 g s' := by
  intro bs
  induction bs with
  | nil =>
      intro k s s' _ h hok
      simp only [flowFrom] at hok
      cases hok
      exact h
  | cons b rest ih =>
      intro k s s' hall h hok
      cases hstep : stepBlock g k b s with
      | error e => simp [flowFrom, hstep] at hok
      | ok s1 =>
          simp only [flowFrom, hstep] at hok
          exact ih (k + 1) s1 s' (fun x hx => hall x (List.mem_cons_of_mem b hx))
            (stepBlock_inv2 h (hall b (by simp)) hstep) hok

theorem stepBlock_error_split {g : Geom} {i : Nat} {b : CBlock} {s : FlowState}
    {e : LayoutErr} (h : stepBlock g i b s = .error e) : e = .splitError i := by
  cases b with
  | pageBreak => rw [stepBlock_pageBreak] at h; cases h
  | leaf lb =>
      by_cases hfit : s.cursor + leafHeight (contentWidth g) lb ≤ contentHeight g
      · rw [stepBlock_leaf_fits hfit] at h; cases h
      · by_cases hle : leafHeight (contentWidth g) lb ≤ contentHeight g
        · rw [stepBlock_leaf_fresh hfit hle] at h; cases h
        · rw [stepBlock_leaf_big (by omega)] at h; cases h
  | table t =>
      by_cases hfit : s.cursor + (rowHeights t).sum ≤ contentHeight g
      · rw [stepBlock_table_fits hfit] at h; cases h
      · cases hany : (rowHeights t).any (fun r => decide (contentHeight g < r)) with
        | true =>
            rw [stepBlock_table_err hfit hany] at h
            cases h
            rfl
        | false => rw [stepBlock_table_split hfit hany] at h; cases h

theorem stepBlock_ok_of_not_big {g : Geom} {i : Nat} {b : CBlock} {s : FlowState}
    (h : hasBigRow g b = false) : ∃ s', stepBlock g i b s = .ok s' := by
  cases b with
  | pageBreak => exact ⟨_, stepBlock_pageBreak g i s⟩
  | leaf lb =>
      by_cases hfit : s.cursor + leafHeight (contentWidth g) lb ≤ contentHeight g
      · exact ⟨_, stepBlock_leaf_fits hfit⟩
      · by_cases hle : leafHeight (contentWidth g) lb ≤ contentHeight g
        · exact ⟨_, stepBlock_leaf_fresh hfit hle⟩
        · exact ⟨_, stepBlock_leaf_big (by omega)⟩
  | table t =>
      by_cases hfit : s.cursor + (rowHeights t).sum ≤ contentHeight g
      · exact ⟨_, stepBlock_table_fits hfit⟩
      · have hany : (rowHeights t).any (fun r => decide (contentHeight g < r)) = false := h
        exact ⟨_, stepBlock_table_split hfit hany⟩

theorem stepBlock_big_err {g : Geom} {i : Nat} {t : TableB} {s : FlowState}
    (hbig : hasBigRow g (.table t) = true) :
    stepBlock g i (.table t) s = .error (.splitError i) := by
  have hex : ∃ r ∈ rowHeights t, contentHeight g < r := by
    simpa [hasBigRow] using hbig
  obtain ⟨r, hr, hlt⟩ := hex
  have hsum : contentHeight g < (rowHeights t).sum :=
    lt_of_lt_of_le hlt (List.single_le_sum (fun x _ => Nat.zero_le x) r hr)
  exact stepBlock_table_err (by omega) hbig

theorem flow_error_split (g : Geom) :
    ∀ (bs : List CBlock) (k : Nat) (s : FlowState) (e : LayoutErr),
      flowFrom g k bs s = .error e → ∃ j, e = .splitError j := by
  intro bs
  induction bs with
  | nil => intro k s e h; simp [flowFrom] at h
  | cons b rest ih =>
      intro k s e h
      cases hstep : stepBlock g k b s with
      | error e1 =>
          simp only [flowFrom, hstep] at h
          cases h
          exact ⟨k, stepBlock_error_split hstep⟩
      | ok s1 =>
          simp only [flowFrom, hstep] at h
          exact ih (k + 1) s1 e h

theorem flow_big_err (g : Geom) :
    ∀ (bs : List CBlock) (k : Nat) (s : FlowState),
      (∃ b ∈ bs, hasBigRow g b = true) →
      ∃ j t, flowFrom g k bs s = .error (.splitError (k + j)) ∧
        bs[j]? = some (.table t) ∧ hasBigRow g (.table t) = true := by
  intro bs
  induction bs with
  | nil => intro k s h; simp at h
  | cons b rest ih =>
      intro k s hex
      cases hb : hasBigRow g b with
      | true =>
          cases b with
          | leaf lb => simp [hasBigRow] at hb
          | pageBreak => simp [hasBigRow] at hb
          | table t =>
              refine ⟨0, t, ?_, by simp, hb⟩
              simp only [flowFrom, stepBlock_big_err hb, Nat.add_zero]
      | false =>
          have hex2 : ∃ x ∈ rest, hasBigRow g x = true := by
            obtain ⟨x, hx, hxb⟩ := hex
            rcases List.mem_cons.mp hx with rfl | hx
            · rw [hb] at hxb; cases hxb
            · exact ⟨x, hx, hxb⟩
          obtain ⟨s1, hs1⟩ := stepBlock_ok_of_not_big (i := k) (s := s) hb
          obtain ⟨j, t, herr, hidx, hbig⟩ := ih (k + 1) s1 hex2
          refine ⟨j + 1, t, ?_, by simpa using hidx, hbig⟩
          simp only [flowFrom, hs1]
          have : k + 1 + j = k + (j + 1) := by omega
          rwa [this] at herr

theorem firstBadConfig_none_iff (g : Geom) :
    ∀ bs : List CBlock, firstBadConfig g bs = none ↔ ∀ b ∈ bs, configOk g b = true := by
  intro bs
  induction bs with
  | nil => simp [firstBadConfig]
  | cons b rest ih =>
      by_cases hb : configOk g b
      · simp [firstBadConfig, hb, Option.map_eq_none', ih]
      · simp [firstBadConfig, hb]

theorem firstBadConfig_some (g : Geom) :
    ∀ (bs : List CBlock) (i : Nat), firstBadConfig g bs = some i →
      ∃ t, bs[i]? = some (.table t) ∧ contentWidth g < t.columnWidths.sum := by
  intro bs
  induction bs with
  | nil => intro i h; simp [firstBadConfig] at h
  | cons b rest ih =>
      intro i h
      by_cases hb : configOk g b
      · rw [firstBadConfig, if_pos hb] at h
        cases hr : firstBadConfig g rest with
        | none => rw [hr] at h; cases h
        | some j =>
            rw [hr] at h
            simp only [Option.map_some', Option.some.injEq] at h
            subst h
            obtain ⟨t, ht, hw⟩ := ih j hr
            exact ⟨t, by simpa using ht, hw⟩
      · rw [firstBadConfig, if_neg hb] at h
        cases h
        cases b with
        | leaf lb => simp [configOk] at hb
        | pageBreak => simp [configOk] at hb
        | table t =>
            refine ⟨t, by simp, ?_⟩
            simp only [configOk, decide_eq_true_eq] at hb
            omega

theorem firstBadConfig_exists (g : Geom) :
    ∀ bs : List CBlock,
      (∃ (i : Nat) (t : TableB),
        bs[i]? = some (CBlock.table t) ∧ contentWidth g < t.columnWidths.sum) →
      ∃ j, firstBadConfig g bs = some j := by
  intro bs
  induction bs with
  | nil => intro h; obtain ⟨i, t, ht, _⟩ := h; simp at ht
  | cons b rest ih =>
      intro hex
      by_cases hb : configOk g b
      · obtain ⟨i, t, ht, hw⟩ := hex
        cases i with
        | zero =>
            simp only [List.getElem?_cons_zero, Option.some.injEq] at ht
            subst ht
            simp only [configOk, decide_eq_true_eq] at hb
            omega
        | succ i2 =>
            simp only [List.getElem?_cons_succ] at ht
            obtain ⟨j, hj⟩ := ih ⟨i2, t, ht, hw⟩
            refine ⟨j + 1, ?_⟩
            rw [firstBadConfig, if_pos hb, hj]
            rfl
      · exact ⟨0, by rw [firstBadConfig, if_neg hb]⟩

namespace Script

/-! Embedding of the script-level helpers of
src/moltblox_testnet_launch.py: the color constants, the paragraph styles,
the `make_step` row builder and the `on_page` page-decoration callback.
Colors are 24-bit RGB values; coordinates are rationals in points
(letter = 612 x 792 pt, inch = 72 pt); table column widths are recorded in
hundredths of an inch. -/

def DARK : Nat := 0x0a0a0a
def CARD : Nat := 0x141414
def TEAL : Nat := 0x00D9A6
def TEAL_DIM : Nat := 0x0D3D35
def WHITE : Nat := 0xFFFFFF
def GREY : Nat := 0x999999
def LIGHT_GREY : Nat := 0x666666
def BORDER : Nat := 0x2a2a2a
def SECTION_BG : Nat := 0x1a1a1a
def AMBER : Nat := 0xffb74d
def CORAL : Nat := 0xff6b6b

/-- A ParagraphStyle as used by the script (only the fields the script
sets are modelled; unset fields keep the library defaults: Helvetica 10/12,
black text, left alignment 0). -/
structure PStyle where
  name : String
  fontName : String := "Helvetica"
  fontSize : Nat := 10
  leading : Nat := 12
  textColor : Nat := 0
  alignment : Nat := 0
  spaceBefore : Nat := 0
  spaceAfter : Nat := 0
  backColor : Option Nat := none
deriving DecidableEq, Repr

def title_style : PStyle :=
  { name := "Title", fontName := "Helvetica-Bold", fontSize := 28, leading := 34,
    textColor := WHITE, alignment := 0 }

def subtitle_style : PStyle :=
  { name := "Subtitle", fontName := "Helvetica", fontSize := 11, leading := 16,
    textColor := GREY, alignment := 0 }

def section_style : PStyle :=
  { name := "Section", fontName := "Helvetica-Bold", fontSize := 16, leading := 22,
    textColor := TEAL, alignment := 0, spaceBefore := 20, spaceAfter := 8 }

def step_title_style : PStyle :=
  { name := "StepTitle", fontName := "Helvetica-Bold", fontSize := 11, leading := 15,
    textColor := WHITE }

def step_body_style : PStyle :=
  { name := "StepBody", fontName := "Helvetica", fontSize := 9, leading := 13,
    textColor := GREY }

def note_style : PStyle :=
  { name := "Note", fontName := "Helvetica-Oblique", fontSize := 8, leading := 11,
    textColor := LIGHT_GREY }

def code_style : PStyle :=
  { name := "Code", fontName := "Courier", fontSize := 8, leading := 11,
    textColor := TEAL, backColor := some 0x111111 }

def owner_you_style : PStyle :=
  { name := "OwnerYou", fontName := "Helvetica-Bold", fontSize := 8, leading := 10,
    textColor := AMBER }

def owner_claude_style : PStyle :=
  { name := "OwnerClaude", fontName := "Helvetica-Bold", fontSize := 8, leading := 10,
    textColor := TEAL }

def footer_style : PStyle :=
  { name := "Footer", fontName := "Helvetica", fontSize := 7, leading := 9,
    textColor := LIGHT_GREY, alignment := 1 }

/-- A flowable as built by `make_step`: a Paragraph or a Spacer. -/
inductive Flw where
  | par (text : String) (style : PStyle)
  | spc (w h : Nat)
deriving DecidableEq, Repr

/-- A table cell value: a single flowable or a list of flowables. -/
inductive CellV where
  | one (f : Flw)
  | many (fs : List Flw)
deriving DecidableEq, Repr

/-- A TableStyle command (cell ranges as ((col,row),(col,row)) with -1 for
end-relative indices; line thickness in tenths of a point). -/
inductive TCmd where
  | valign (a b : Int × Int) (mode : String)
  | topPadding (a b : Int × Int) (v : Nat)
  | bottomPadding (a b : Int × Int) (v : Nat)
  | leftPadding (a b : Int × Int) (v : Nat)
  | lineBelow (a b : Int × Int) (thickness10 : Nat) (color : Nat)
  | background (a b : Int × Int) (color : Nat)
  | roundedCorners (cs : List Nat)
deriving DecidableEq, Repr

/-- A Table flowable: cell data, column widths (hundredths of an inch) and
style commands. -/
structure PyTable where
  data : List (List CellV)
  colWidths : List Nat
  styleCmds : List TCmd
deriving DecidableEq, Repr

/-- Embedded from the source (`make_step`, lines 147-185): build the
single-row step table — checkbox, step number, content parts
(title, optional body, optional code), and the owner tag, which is an
amber YOU paragraph exactly when `owner` is the string "you" and a teal
CLAUDE paragraph otherwise. -/
def make_step (num : Nat) (title : String) (body : String)
    (owner : String := "you") (code : Option String := none) : PyTable :=
  let owner_tag : Flw :=
    if owner = "you" then Flw.par "YOU" owner_you_style
    else Flw.par "CLAUDE" owner_claude_style
  let step_num : Flw :=
    Flw.par ("<font color=\"#00D9A6\"><b>" ++ toString num ++ "</b></font>")
      { name := "Num", fontName := "Helvetica-Bold", fontSize := 14,
        textColor := TEAL, alignment := 1 }
  let content_parts : List Flw :=
    [Flw.par title step_title_style]
      ++ (if body ≠ "" then [Flw.spc 1 3, Flw.par body step_body_style] else [])
      ++ (match code with
          | some c =>
              if c ≠ "" then
                [Flw.spc 1 4,
                 Flw.par ("<font face=\"Courier\" color=\"#00D9A6\" size=\"8\">" ++ c
                   ++ "</font>") code_style]
              else []
          | none => [])
  let checkbox : Flw :=
    Flw.par "<font size=\"14\" color=\"#2a2a2a\">☐</font>"
      { name := "CB", fontSize := 14, alignment := 1, textColor := BORDER }
  { data := [[CellV.one checkbox, CellV.one step_num, CellV.many content_parts,
              CellV.one owner_tag]],
    colWidths := [35, 45, 510, 70],
    styleCmds :=
      [TCmd.valign (0, 0) (-1, -1) "TOP",
       TCmd.topPadding (0, 0) (-1, -1) 8,
       TCmd.bottomPadding (0, 0) (-1, -1) 8,
       TCmd.leftPadding (0, 0) (0, 0) 4,
       TCmd.lineBelow (0, 0) (-1, -1) 5 BORDER] }

/-- The mutable graphics state of a canvas: current fill color and font. -/
structure GState where
  fillColor : Nat := 0
  fontName : String := "Helvetica"
  fontSize : ℚ := 12
deriving DecidableEq, Repr

/-- A recorded drawing operation (each op captures the graphics-state
values it was issued under). -/
inductive DrawOp where
  | rectOp (x y w h : ℚ) (fill stroke : Nat) (color : Nat)
  | centredText (x y : ℚ) (s : String) (font : String) (size : ℚ) (color : Nat)
  | rightText (x y : ℚ) (s : String) (font : String) (size : ℚ) (color : Nat)
deriving DecidableEq, Repr

/-- A canvas: current graphics state, the saved-state stack, and the
drawing operations issued so far. -/
structure Canvas where
  g : GState
  stack : List GState
  ops : List DrawOp
deriving DecidableEq, Repr

def saveState (c : Canvas) : Canvas := { c with stack := c.g :: c.stack }

def restoreState (c : Canvas) : Canvas :=
  match c.stack with
  | [] => c
  | g0 :: rest => { c with g := g0, stack := rest }

def setFillColor (c : Canvas) (col : Nat) : Canvas :=
  { c with g := { c.g with fillColor := col } }

def setFont (c : Canvas) (n : String) (sz : ℚ) : Canvas :=
  { c with g := { c.g with fontName := n, fontSize := sz } }

def rect (c : Canvas) (x y w h : ℚ) (fill stroke : Nat) : Canvas :=
  { c with ops := c.ops ++ [DrawOp.rectOp x y w h fill stroke c.g.fillColor] }

def drawCentredString (c : Canvas) (x y : ℚ) (s : String) : Canvas :=
  { c with ops := c.ops ++ [DrawOp.centredText x y s c.g.fontName c.g.fontSize c.g.fillColor] }

def drawRightString (c : Canvas) (x y : ℚ) (s : String) : Canvas :=
  { c with ops := c.ops ++ [DrawOp.rightText x y s c.g.fontName c.g.fontSize c.g.fillColor] }

def letterW : ℚ := 612
def letterH : ℚ := 792
def inch : ℚ := 72

/-- The document object as seen by the page callback: the current 1-based
page number plus the page's placed content (opaque to the decorator). -/
structure DocT where
  page : Nat
  content : List Nat
deriving DecidableEq, Repr

/-- Embedded from the source (`on_page`, lines 126-141): save the state,
paint the full-page dark background, draw the footer line and the
right-aligned page number in light grey Helvetica 7, restore the state. -/
def on_page (canvas_obj : Canvas) (doc : DocT) : Canvas :=
  let c1 := saveState canvas_obj
  let c2 := setFillColor c1 DARK
  let c3 := rect c2 0 0 letterW letterH 1 0
  let c4 := setFillColor c3 LIGHT_GREY
  let c5 := setFont c4 "Helvetica" 7
  let c6 := drawCentredString c5 (letterW / 2) ((0.4 : ℚ) * inch)
    "Moltblox Testnet Launch Guide | Halldon Inc. | Confidential"
  let c7 := drawRightString c6 (letterW - (0.75 : ℚ) * inch) ((0.4 : ℚ) * inch)
    ("Page " ++ toString doc.page)
  restoreState c7

/-- The drawing operations `on_page` issues for page number `p`: they
depend only on `p` and fixed constants. -/
def pageOps (p : Nat) : List DrawOp :=
  [DrawOp.rectOp 0 0 letterW letterH 1 0 DARK,
   DrawOp.centredText (letterW / 2) ((0.4 : ℚ) * inch)
     "Moltblox Testnet Launch Guide | Halldon Inc. | Confidential"
     "Helvetica" 7 LIGHT_GREY,
   DrawOp.rightText (letterW - (0.75 : ℚ) * inch) ((0.4 : ℚ) * inch)
     ("Page " ++ toString p) "Helvetica" 7 LIGHT_GREY]

end Script

theorem paginate_configError_iff (g : Geom) (bs : List CBlock) (i : Nat) :
    paginate g bs = .error (.configError i) ↔ firstBadConfig g bs = some i := by
  constructor
  · intro h
    cases hfb : firstBadConfig g bs with
    | some j =>
        simp only [paginate, hfb, Except.error.injEq, LayoutErr.configError.injEq] at h
        rw [h]
    | none =>
        simp only [paginate, hfb] at h
        cases hfl : flowFrom g 0 bs initState with
        | error e =>
            rw [hfl] at h
            obtain ⟨j, rfl⟩ := flow_error_split g bs 0 initState e hfl
            simp at h
        | ok s =>
            rw [hfl] at h
            simp at h
  · intro h
    simp only [paginate, h]

/-- Claim C8: for every (text, resolvedStyle, maxWidth), `measure` wraps
greedily — the produced lines concatenate to exactly the input words in
order (no word lost, duplicated or reordered), every line is nonempty, a
line with two or more words fits within maxWidth (so a single word wider
than maxWidth occupies its own line unshortened), consecutive lines are
maximal (the first word of the next line would have overflowed the
previous line), and every line's height equals the style's leading value
independent of the glyphs on the line. -/
theorem c8_measure_greedy (ws : List Word) (st : RStyle) (maxW : Nat) :
    ((measure ws st maxW).map Line.words).flatten = ws ∧
    (∀ l ∈ measure ws st maxW,
      l.height = st.leading ∧ l.words ≠ [] ∧
      (2 ≤ l.words.length → l.width ≤ maxW) ∧
      (∀ w ∈ l.words, maxW < w.width → l.words = [w])) ∧
    List.Chain' (fun a b => ∀ w ∈ b.words.head?, maxW < a.width + st.spaceWidth + w.width)
      (measure ws st maxW) := by
  cases ws with
  | nil => simp [measure]
  | cons w rest =>
      refine ⟨?_, ?_, ?_⟩
      · show ((List.map Line.words
            ((wrapRec maxW st.spaceWidth [w] w.width rest).map
              (fun p => ⟨p.1, p.2, st.leading⟩)))).flatten = w :: rest
        rw [List.map_map]
        have : (Line.words ∘ fun p : List Word × Nat => Line.mk p.1 p.2 st.leading) =
            Prod.fst := rfl
        rw [this, wrapRec_join]
        simp
      · intro l hl
        simp only [measure, List.mem_map] at hl
        obtain ⟨p, hp, rfl⟩ := hl
        have hfacts := wrapRec_lines maxW st.spaceWidth rest [w] w.width
          (by simp) (by simp [lineW]) (by simp) p hp
        obtain ⟨hne, hwidth, hble⟩ := hfacts
        refine ⟨rfl, hne, hble, ?_⟩
        intro x hx hxw
        by_cases hlen : 2 ≤ p.1.length
        · exfalso
          have h1 : x.width ≤ (p.1.map Word.width).sum :=
            List.single_le_sum (fun y _ => Nat.zero_le y) x.width
              (List.mem_map_of_mem Word.width hx)
          have h2 : p.2 ≤ maxW := hble hlen
          rw [hwidth] at h2
          simp only [lineW] at h2
          omega
        · obtain ⟨y, ys, hcons⟩ := List.exists_cons_of_ne_nil hne
          have hys : ys = [] := by
            by_contra hzs
            obtain ⟨z, zs, hzz⟩ := List.exists_cons_of_ne_nil hzs
            rw [hcons, hzz] at hlen
            simp only [List.length_cons] at hlen
            omega
          subst hys
          have hx2 : x ∈ p.1 := hx
          show p.1 = [x]
          rw [hcons] at hx2 ⊢
          simp only [List.mem_singleton] at hx2
          rw [hx2]
      · show List.Chain' _ ((wrapRec maxW st.spaceWidth [w] w.width rest).map
          (fun p => Line.mk p.1 p.2 st.leading))
        rw [List.chain'_map]
        exact wrapRec_chain maxW st.spaceWidth rest [w] w.width

/-- Claim C3: pagination and measurement are deterministic — two runs on
identical inputs (same geometry, same block sequence; same text, style and
maxWidth) produce identical outputs.  The engine is a pure function of its
inputs, as the spec's concurrency section requires. -/
theorem c3_determinism (g1 g2 : Geom) (bs1 bs2 : List CBlock) (ws1 ws2 : List Word)
    (st1 st2 : RStyle) (mw1 mw2 : Nat)
    (hg : g1 = g2) (hb : bs1 = bs2) (hw : ws1 = ws2) (hst : st1 = st2) (hm : mw1 = mw2) :
    paginate g1 bs1 = paginate g2 bs2 ∧ measure ws1 st1 mw1 = measure ws2 st2 mw2 := by
  subst hg
  subst hb
  subst hw
  subst hst
  subst hm
  exact ⟨rfl, rfl⟩

/-- Claim C4: a non-splittable block taller than a full page's content
area is placed wholly on a new dedicated page (after closing the current
page if it holds anything), a LayoutOverflowWarning is recorded instead of
failing, and the dedicated page is closed so every subsequent block starts
on the page after it. -/
theorem c4_overflow_dedicated (g : Geom) (i : Nat) (lb : Leaf) (s : FlowState)
    (hbig : contentHeight g < leafHeight (contentWidth g) lb)
    (hcur : s.cursor = boxesH s.cur) :
    ∃ s', stepBlock g i (.leaf lb) s = .ok s' ∧
      s'.warnings = s.warnings ++ [i] ∧
      s'.cur = [] ∧ s'.cursor = 0 ∧
      s'.pages =
        (if s.cur.isEmpty then s.pages else s.pages ++ [⟨s.pageIndex, s.cur⟩]) ++
          [⟨(if s.cur.isEmpty then s.pageIndex else s.pageIndex + 1),
            [⟨0, 0, leafWidth g lb, leafHeight (contentWidth g) lb, i⟩]⟩] ∧
      s'.pageIndex = (if s.cur.isEmpty then s.pageIndex else s.pageIndex + 1) + 1 := by
  rw [stepBlock_leaf_big hbig]
  by_cases hce : s.cur.isEmpty
  · have hnil : s.cur = [] := List.isEmpty_iff.mp hce
    have hcur0 : s.cursor = 0 := by
      rw [hcur, hnil]
      simp [boxesH]
    refine ⟨_, rfl, ?_, ?_, ?_, ?_, ?_⟩ <;>
      simp [closePage, place, hce, hcur0, hnil]
  · refine ⟨_, rfl, ?_, ?_, ?_, ?_, ?_⟩ <;>
      simp [closePage, place, hce]

/-- Claim C7: a PageBreak block closes the current page at that point
regardless of how much vertical space remains, contributing a zero-height
box, and the block following it is placed at the top (y = 0) of the fresh
page. -/
theorem c7_pagebreak (g : Geom) (i : Nat) (s : FlowState) :
    ∃ s', stepBlock g i CBlock.pageBreak s = .ok s' ∧
      s'.pages = s.pages ++ [⟨s.pageIndex, s.cur ++ [⟨0, s.cursor, 0, 0, i⟩]⟩] ∧
      s'.cur = [] ∧ s'.cursor = 0 ∧ s'.pageIndex = s.pageIndex + 1 ∧
      (∀ (j : Nat) (lb : Leaf) (s'' : FlowState),
        stepBlock g j (.leaf lb) s' = .ok s'' →
        ∃ nb : PlacedBox, allBoxes s'' = allBoxes s' ++ [nb] ∧ nb.y = 0 ∧
          nb.height = leafHeight (contentWidth g) lb ∧ nb.ref = j) := by
  refine ⟨closePage (place s i 0 0), stepBlock_pageBreak g i s,
    by simp [closePage, place], rfl, rfl, rfl, ?_⟩
  intro j lb s'' hok
  have hcur0 : (closePage (place s i 0 0)).cursor = 0 := rfl
  have hcure : (closePage (place s i 0 0)).cur = [] := rfl
  by_cases hle : leafHeight (contentWidth g) lb ≤ contentHeight g
  · have hfit : (closePage (place s i 0 0)).cursor + leafHeight (contentWidth g) lb ≤
        contentHeight g := by rw [hcur0]; omega
    rw [stepBlock_leaf_fits hfit] at hok
    obtain rfl : s'' = place (closePage (place s i 0 0)) j (leafWidth g lb)
        (leafHeight (contentWidth g) lb) := by cases hok; rfl
    exact ⟨_, allBoxes_place _ _ _ _, hcur0, rfl, rfl⟩
  · rw [stepBlock_leaf_big (by omega)] at hok
    obtain rfl : s'' =
        (let s1 := if (closePage (place s i 0 0)).cur.isEmpty then closePage (place s i 0 0)
          else closePage (closePage (place s i 0 0))
         let s2 := closePage (place s1 j (leafWidth g lb) (leafHeight (contentWidth g) lb))
         { s2 with warnings := s2.warnings ++ [j] }) := by cases hok; rfl
    have hie : (closePage (place s i 0 0)).cur.isEmpty = true := by
      rw [hcure]; rfl
    refine ⟨⟨0, (closePage (place s i 0 0)).cursor, leafWidth g lb,
      leafHeight (contentWidth g) lb, j⟩, ?_, hcur0, rfl, rfl⟩
    show allBoxes (closePage (place (if (closePage (place s i 0 0)).cur.isEmpty then _ else _)
      j _ _)) = _
    rw [if_pos hie, allBoxes_closePage, allBoxes_place]

/-- Claim C5: a table that does not fit is split only at row boundaries —
every placed table portion's height is the sum of a contiguous group of
whole rows, the groups covering all rows in order (no row's cells are ever
separated across two pages) — and a table containing a single row taller
than a full page's content area aborts the run with a fatal SplitError
identifying the offending block. -/
theorem c5_table_split (g : Geom) :
    (∀ (i : Nat) (t : TableB) (s s' : FlowState),
      stepBlock g i (.table t) s = .ok s' →
      ∃ (groups : List (List Nat)) (new : List PlacedBox),
        groups.flatten = rowHeights t ∧
        allBoxes s' = allBoxes s ++ new ∧
        new.map PlacedBox.height = groups.map List.sum ∧
        (∀ b ∈ new, b.ref = i)) ∧
    (∀ bs : List CBlock, (∀ b ∈ bs, configOk g b = true) →
      (∃ b ∈ bs, hasBigRow g b = true) →
      ∃ (i : Nat) (t : TableB), paginate g bs = .error (.splitError i) ∧
        bs[i]? = some (CBlock.table t) ∧ ∃ r ∈ rowHeights t, contentHeight g < r) := by
  constructor
  · intro i t s s' hok
    by_cases hfit : s.cursor + (rowHeights t).sum ≤ contentHeight g
    · rw [stepBlock_table_fits hfit] at hok
      obtain rfl : s' = place s i t.columnWidths.sum (rowHeights t).sum := by
        cases hok; rfl
      exact ⟨[rowHeights t], [⟨0, s.cursor, t.columnWidths.sum, (rowHeights t).sum, i⟩],
        by simp, allBoxes_place _ _ _ _, by simp, by simp⟩
    · cases hany : (rowHeights t).any (fun r => decide (contentHeight g < r)) with
      | true => rw [stepBlock_table_err hfit hany] at hok; cases hok
      | false =>
          rw [stepBlock_table_split hfit hany] at hok
          obtain rfl : s' = splitGo g t.columnWidths.sum i
              (2 * (rowHeights t).length + 1) s (rowHeights t) := by cases hok; rfl
          have hrows : ∀ r ∈ rowHeights t, r ≤ contentHeight g := by
            intro r hr
            have := List.any_eq_false.mp hany r hr
            simp only [decide_eq_true_eq] at this
            omega
          obtain ⟨groups, new, h1, h2, h3, h4, h5, h6⟩ :=
            splitGo_boxes g t.columnWidths.sum i (2 * (rowHeights t).length + 1)
              (rowHeights t) s hrows
              (fun hne => Or.inl (by
                have := List.length_pos.mpr hne
                omega))
          exact ⟨groups, new, h1, h2, h3, fun b hb => (h4 b hb).1⟩
  · intro bs hconf hbig
    have hfb : firstBadConfig g bs = none := (firstBadConfig_none_iff g bs).mpr hconf
    obtain ⟨j, t, herr, hidx, hbigt⟩ := flow_big_err g bs 0 initState hbig
    refine ⟨j, t, ?_, by simpa using hidx, by simpa [hasBigRow] using hbigt⟩
    simp only [paginate, hfb]
    rw [show (0 + j) = j from by omega] at herr
    rw [herr]

/-- Claim C6: pagination fails with a ConfigurationError—surfaced before
any page is emitted (the error carries no pages)—if and only if some
table's columnWidths sum to more than the available content width; the
error identifies such a table; and columns are never auto-shrunk: every
box a table step places has width equal to the sum of the table's
configured column widths. -/
theorem c6_config_width (g : Geom) (bs : List CBlock) :
    ((∃ i, paginate g bs = .error (.configError i)) ↔
      (∃ (i : Nat) (t : TableB), bs[i]? = some (CBlock.table t) ∧
        contentWidth g < t.columnWidths.sum)) ∧
    (∀ i, paginate g bs = .error (.configError i) →
      ∃ t : TableB, bs[i]? = some (CBlock.table t) ∧
        contentWidth g < t.columnWidths.sum) ∧
    (∀ (i : Nat) (t : TableB) (s s' : FlowState),
      stepBlock g i (.table t) s = .ok s' →
      ∀ b ∈ allBoxes s', b ∈ allBoxes s ∨ b.width = t.columnWidths.sum) := by
  refine ⟨⟨?_, ?_⟩, ?_, ?_⟩
  · rintro ⟨i, hi⟩
    have := (paginate_configError_iff g bs i).mp hi
    obtain ⟨t, ht, hw⟩ := firstBadConfig_some g bs i this
    exact ⟨i, t, ht, hw⟩
  · rintro ⟨i, t, ht, hw⟩
    obtain ⟨j, hj⟩ := firstBadConfig_exists g bs ⟨i, t, ht, hw⟩
    exact ⟨j, (paginate_configError_iff g bs j).mpr hj⟩
  · intro i hi
    exact firstBadConfig_some g bs i ((paginate_configError_iff g bs i).mp hi)
  · intro i t s s' hok b hb
    by_cases hfit : s.cursor + (rowHeights t).sum ≤ contentHeight g
    · rw [stepBlock_table_fits hfit] at hok
      obtain rfl : s' = place s i t.columnWidths.sum (rowHeights t).sum := by
        cases hok; rfl
      rw [allBoxes_place] at hb
      rcases List.mem_append.mp hb with hb | hb
      · exact Or.inl hb
      · simp only [List.mem_singleton] at hb
        subst hb
        exact Or.inr rfl
    · cases hany : (rowHeights t).any (fun r => decide (contentHeight g < r)) with
      | true => rw [stepBlock_table_err hfit hany] at hok; cases hok
      | false =>
          rw [stepBlock_table_split hfit hany] at hok
          obtain rfl : s' = splitGo g t.columnWidths.sum i
              (2 * (rowHeights t).length + 1) s (rowHeights t) := by cases hok; rfl
          have hrows : ∀ r ∈ rowHeights t, r ≤ contentHeight g := by
            intro r hr
            have := List.any_eq_false.mp hany r hr
            simp only [decide_eq_true_eq] at this
            omega
          obtain ⟨groups, new, h1, h2, h3, h4, h5, h6⟩ :=
            splitGo_boxes g t.columnWidths.sum i (2 * (rowHeights t).length + 1)
              (rowHeights t) s hrows
              (fun hne => Or.inl (by
                have := List.length_pos.mpr hne
                omega))
          rw [h2] at hb
          rcases List.mem_append.mp hb with hb | hb
          · exact Or.inl hb
          · exact Or.inr (h4 b hb).2

/-- Claim C1 (amended): whenever pagination succeeds, the concatenation in
page order then within-page order of the originating block references,
after merging adjacent repeats of the same reference (the continuation
boxes of a table split across pages), equals the input block sequence —
no block dropped, none reordered, and no duplication beyond a split
table's adjacent continuations. -/
theorem c1_refs_amended (g : Geom) (bs : List CBlock) (out : EngineOut)
    (hok : paginate g bs = .ok out) :
    collapse (allRefs out) = List.range bs.length := by
  cases hfb : firstBadConfig g bs with
  | some j => simp [paginate, hfb] at hok
  | none =>
      simp only [paginate, hfb] at hok
      cases hfl : flowFrom g 0 bs initState with
      | error e => rw [hfl] at hok; cases hok
      | ok s =>
          rw [hfl] at hok
          obtain rfl : out = ⟨s.pages ++ [⟨s.pageIndex, s.cur⟩], s.warnings⟩ := by
            cases hok; rfl
          have hinv := flow_inv1 g bs 0 initState s (inv1_init g) hfl
          have hrw : allRefs ⟨s.pages ++ [⟨s.pageIndex, s.cur⟩], s.warnings⟩ =
              (allBoxes s).map PlacedBox.ref := by
            simp [allRefs, allBoxes]
          rw [hrw]
          simpa using hinv.1

/-- Claim C2 (amended): whenever pagination succeeds and no block is
taller than the content area, every placed box lies within the page
content rectangle (top offsets are nonnegative by construction and
y + height ≤ contentHeight), and the boxes of each page are stacked
gaplessly — each box's top is the previous box's top plus its height — so
they never overlap vertically and their tops are strictly increasing
whenever all placed heights are positive. -/
theorem c2_boxes_amended (g : Geom) (bs : List CBlock) (out : EngineOut)
    (hok : paginate g bs = .ok out)
    (hsmall : ∀ b ∈ bs, blockHeight g b ≤ contentHeight g) :
    ∀ p ∈ out.pages,
      stackedFrom 0 p.boxes ∧
      (∀ b ∈ p.boxes, b.y + b.height ≤ contentHeight g) ∧
      List.Chain' (fun a b => a.y + a.height ≤ b.y) p.boxes ∧
      ((∀ b ∈ p.boxes, 0 < b.height) →
        List.Chain' (fun a b => a.y < b.y) p.boxes) := by
  cases hfb : firstBadConfig g bs with
  | some j => simp [paginate, hfb] at hok
  | none =>
      simp only [paginate, hfb] at hok
      cases hfl : flowFrom g 0 bs initState with
      | error e => rw [hfl] at hok; cases hok
      | ok s =>
          rw [hfl] at hok
          obtain rfl : out = ⟨s.pages ++ [⟨s.pageIndex, s.cur⟩], s.warnings⟩ := by
            cases hok; rfl
          have hinv := flow_inv2 g bs 0 initState s hsmall (inv2_init g) hfl
          have hinv2 := inv2_closePage hinv
          intro p hp
          have hpin : p ∈ (closePage s).pages := by
            simpa [closePage] using hp
          obtain ⟨hst, hcont⟩ := hinv2.pagesWF p hpin
          exact ⟨hst, hcont, stacked_chain hst, fun hpos => stacked_chain_lt hst hpos⟩

/-- Claim C9: in the single-row table `make_step` returns, the fourth cell
is the amber YOU paragraph exactly when `owner` is the string "you"; any
other owner value yields the teal CLAUDE paragraph. -/
theorem c9_owner_tag (num : Nat) (title body owner : String) (code : Option String) :
    ((((Script.make_step num title body owner code).data.headD []).getD 3
        (Script.CellV.many []) =
        Script.CellV.one (Script.Flw.par "YOU" Script.owner_you_style)) ↔ owner = "you") ∧
    (owner ≠ "you" →
      (((Script.make_step num title body owner code).data.headD []).getD 3
        (Script.CellV.many []) =
        Script.CellV.one (Script.Flw.par "CLAUDE" Script.owner_claude_style))) ∧
    Script.owner_you_style.textColor = Script.AMBER ∧
    Script.owner_claude_style.textColor = Script.TEAL := by
  by_cases h : owner = "you" <;>
    simp [Script.make_step, h, Script.owner_you_style, Script.owner_claude_style]

/-- Claim C10: `on_page` restores the canvas graphics state it found
(saveState matched by restoreState: same current state and same stack
afterwards), and the drawing it performs is an appended suffix that
depends only on the page number `doc.page` and fixed constants — never on
the page's placed content. -/
theorem c10_on_page_frame (c : Script.Canvas) (doc : Script.DocT) :
    (Script.on_page c doc).g = c.g ∧
    (Script.on_page c doc).stack = c.stack ∧
    (Script.on_page c doc).ops = c.ops ++ Script.pageOps doc.page ∧
    (∀ doc2 : Script.DocT, doc.page = doc2.page →
      Script.on_page c doc = Script.on_page c doc2) := by
  refine ⟨rfl, rfl, ?_, ?_⟩
  · simp [Script.on_page, Script.pageOps, Script.saveState, Script.setFillColor,
      Script.setFont, Script.rect, Script.drawCentredString, Script.drawRightString,
      Script.restoreState]
  · intro d2 h
    simp [Script.on_page, h]

/-! Concrete fixtures for counterexamples and witnesses. -/

/-- A page geometry with zero margins: content area 612 x 700. -/
def gX : Geom := ⟨612, 700, 0, 0, 0, 0⟩

/-- A 5-row table, each row of height 100, total height 500. -/
def tX : TableB := ⟨List.replicate 5 [[Leaf.spacer 100]], [50], 0⟩

/-- A 400-high spacer followed by the 500-high table: the table does not
fit in the remaining 300 and is split across two pages. -/
def bsX : List CBlock := [.leaf (.spacer 400), .table tX]

/-- The output of paginating `bsX` on `gX`. -/
def outX : EngineOut :=
  ⟨[⟨1, [⟨0, 0, 0, 400, 0⟩, ⟨0, 400, 50, 300, 1⟩]⟩,
    ⟨2, [⟨0, 0, 50, 200, 1⟩]⟩], []⟩

/-- Two zero-height spacers followed by a 900-high spacer (taller than
the 700-high content area). -/
def bsY : List CBlock := [.leaf (.spacer 0), .leaf (.spacer 0), .leaf (.spacer 900)]

/-- The output of paginating `bsY` on `gX`: the oversized block is forced
onto dedicated page 2 and overflows it; page 1 carries two boxes with
equal top coordinates. -/
def outY : EngineOut :=
  ⟨[⟨1, [⟨0, 0, 0, 0, 0⟩, ⟨0, 0, 0, 0, 1⟩]⟩,
    ⟨2, [⟨0, 0, 0, 900, 2⟩]⟩,
    ⟨3, []⟩], [2]⟩

/-- Two spacers that flow onto two pages without any table split. -/
def bsW : List CBlock := [.leaf (.spacer 100), .leaf (.spacer 650)]

/-- The output of paginating `bsW` on `gX`. -/
def outW : EngineOut :=
  ⟨[⟨1, [⟨0, 0, 0, 100, 0⟩]⟩, ⟨2, [⟨0, 0, 0, 650, 1⟩]⟩], []⟩

/-- A table whose single column is wider (700) than the content width
(612): a configuration error. -/
def tBad : TableB := ⟨[[[Leaf.spacer 5]]], [700], 0⟩

/-- A table with a single 800-high row: taller than a full page. -/
def tBigRow : TableB := ⟨[[[Leaf.spacer 800]]], [50], 0⟩

/-- Two words of widths 30 and 40 for the measure witness. -/
def wsX : List Word := [⟨"aa", 30⟩, ⟨"bb", 40⟩]

/-- A concrete resolved style: leading 12, space width 10. -/
def stX : RStyle := ⟨"Helvetica", 10, 12, 10, 0, 0⟩

/-- Claim C1 counterexample: on a block sequence in which no block is
taller than the content area (spacer 400 and a 500-high table on a
700-high page), pagination succeeds but the table is split across a page
boundary, so its originating reference appears once per page portion: the
concatenated reference sequence is [0, 1, 1], not the input sequence
[0, 1] — the claim's unconditional no-duplication statement fails. -/
theorem c1_counterexample :
    paginate gX bsX = .ok outX ∧
    (bsX.all fun b => decide (blockHeight gX b ≤ contentHeight gX)) = true ∧
    allRefs outX = [0, 1, 1] ∧
    ¬ allRefs outX = List.range bsX.length :=
  ⟨rfl, by decide, rfl, by decide⟩

/-- Claim C2 counterexample: pagination of `bsY` succeeds, yet page 2
holds a box with y + height = 900 exceeding the 700-high content
rectangle (the forced oversized block), and page 1 holds two boxes whose
top coordinates are both 0, so tops are not strictly increasing — the
claim's unconditional statement fails on the engine. -/
theorem c2_counterexample :
    paginate gX bsY = .ok outY ∧
    (outY.pages.getD 1 ⟨0, []⟩).boxes = [⟨0, 0, 0, 900, 2⟩] ∧
    contentHeight gX < 0 + 900 ∧
    ((outY.pages.getD 0 ⟨0, []⟩).boxes.map PlacedBox.y) = [0, 0] :=
  ⟨rfl, rfl, by decide, rfl⟩

theorem c1_witness : collapse (allRefs outW) = List.range bsW.length :=
  c1_refs_amended gX bsW outW rfl

theorem c2_witness :
    stackedFrom 0 (Page.mk 1 [⟨0, 0, 0, 100, 0⟩]).boxes ∧
    (∀ b ∈ (Page.mk 1 [⟨0, 0, 0, 100, 0⟩]).boxes,
      b.y + b.height ≤ contentHeight gX) ∧
    List.Chain' (fun a b => a.y + a.height ≤ b.y) (Page.mk 1 [⟨0, 0, 0, 100, 0⟩]).boxes ∧
    ((∀ b ∈ (Page.mk 1 [⟨0, 0, 0, 100, 0⟩]).boxes, 0 < b.height) →
      List.Chain' (fun a b => a.y < b.y) (Page.mk 1 [⟨0, 0, 0, 100, 0⟩]).boxes) :=
  c2_boxes_amended gX bsW outW rfl (by decide) ⟨1, [⟨0, 0, 0, 100, 0⟩]⟩ (by decide)

theorem c3_witness :
    paginate gX bsW = paginate gX bsW ∧ measure wsX stX 50 = measure wsX stX 50 :=
  c3_determinism gX gX bsW bsW wsX wsX stX stX 50 50 rfl rfl rfl rfl rfl

theorem c4_witness :
    ∃ s', stepBlock gX 7 (.leaf (.spacer 900)) initState = .ok s' ∧
      s'.warnings = initState.warnings ++ [7] ∧
      s'.cur = [] ∧ s'.cursor = 0 ∧
      s'.pages =
        (if initState.cur.isEmpty then initState.pages
         else initState.pages ++ [⟨initState.pageIndex, initState.cur⟩]) ++
          [⟨(if initState.cur.isEmpty then initState.pageIndex
             else initState.pageIndex + 1),
            [⟨0, 0, leafWidth gX (.spacer 900),
              leafHeight (contentWidth gX) (.spacer 900), 7⟩]⟩] ∧
      s'.pageIndex =
        (if initState.cur.isEmpty then initState.pageIndex
         else initState.pageIndex + 1) + 1 :=
  c4_overflow_dedicated gX 7 (.spacer 900) initState (by decide) (by decide)

theorem c5_witness :
    (∃ (groups : List (List Nat)) (new : List PlacedBox),
      groups.flatten = rowHeights tX ∧
      allBoxes (⟨1, 500, [⟨0, 0, 50, 500, 0⟩], [], []⟩ : FlowState) =
        allBoxes initState ++ new ∧
      new.map PlacedBox.height = groups.map List.sum ∧
      (∀ b ∈ new, b.ref = 0)) ∧
    (∃ (i : Nat) (t : TableB),
      paginate gX [CBlock.leaf (.spacer 10), CBlock.table tBigRow] =
        .error (.splitError i) ∧
      [CBlock.leaf (Leaf.spacer 10), CBlock.table tBigRow][i]? =
        some (CBlock.table t) ∧
      ∃ r ∈ rowHeights t, contentHeight gX < r) :=
  ⟨(c5_table_split gX).1 0 tX initState ⟨1, 500, [⟨0, 0, 50, 500, 0⟩], [], []⟩ rfl,
   (c5_table_split gX).2 [CBlock.leaf (.spacer 10), CBlock.table tBigRow]
     (by decide) (by decide)⟩

theorem c6_witness :
    (∃ i, paginate gX [CBlock.table tBad] = .error (.configError i)) ∧
    (∃ t : TableB, [CBlock.table tBad][0]? = some (CBlock.table t) ∧
      contentWidth gX < t.columnWidths.sum) :=
  ⟨((c6_config_width gX [CBlock.table tBad]).1).mpr ⟨0, tBad, rfl, by decide⟩,
   (c6_config_width gX [CBlock.table tBad]).2.1 0 rfl⟩

theorem c7_witness :
    ∃ s', stepBlock gX 3 CBlock.pageBreak (⟨1, 250, [⟨0, 0, 0, 250, 2⟩], [], []⟩ :
        FlowState) = .ok s' ∧
      s'.pages = (⟨1, 250, [⟨0, 0, 0, 250, 2⟩], [], []⟩ : FlowState).pages ++
        [⟨1, [⟨0, 0, 0, 250, 2⟩] ++ [⟨0, 250, 0, 0, 3⟩]⟩] ∧
      s'.cur = [] ∧ s'.cursor = 0 ∧ s'.pageIndex = 1 + 1 ∧
      (∀ (j : Nat) (lb : Leaf) (s'' : FlowState),
        stepBlock gX j (.leaf lb) s' = .ok s'' →
        ∃ nb : PlacedBox, allBoxes s'' = allBoxes s' ++ [nb] ∧ nb.y = 0 ∧
          nb.height = leafHeight (contentWidth gX) lb ∧ nb.ref = j) :=
  c7_pagebreak gX 3 ⟨1, 250, [⟨0, 0, 0, 250, 2⟩], [], []⟩

theorem c8_witness :
    ((measure wsX stX 50).map Line.words).flatten = wsX ∧
    ((Line.mk [⟨"aa", 30⟩] 30 12).height = stX.leading ∧
      (Line.mk [⟨"aa", 30⟩] 30 12).words ≠ [] ∧
      (2 ≤ (Line.mk [⟨"aa", 30⟩] 30 12).words.length →
        (Line.mk [⟨"aa", 30⟩] 30 12).width ≤ 50) ∧
      (∀ w ∈ (Line.mk [⟨"aa", 30⟩] 30 12).words, 50 < w.width →
        (Line.mk [⟨"aa", 30⟩] 30 12).words = [w])) ∧
    List.Chain' (fun a b => ∀ w ∈ b.words.head?, 50 < a.width + stX.spaceWidth + w.width)
      (measure wsX stX 50) :=
  ⟨(c8_measure_greedy wsX stX 50).1,
   (c8_measure_greedy wsX stX 50).2.1 (Line.mk [⟨"aa", 30⟩] 30 12) (by decide),
   (c8_measure_greedy wsX stX 50).2.2⟩

theorem c9_witness :
    ((((Script.make_step 1 "t" "" "claude" none).data.headD []).getD 3
        (Script.CellV.many [])) =
      Script.CellV.one (Script.Flw.par "CLAUDE" Script.owner_claude_style)) ∧
    ¬ ((((Script.make_step 1 "t" "" "claude" none).data.headD []).getD 3
        (Script.CellV.many [])) =
      Script.CellV.one (Script.Flw.par "YOU" Script.owner_you_style)) :=
  ⟨(c9_owner_tag 1 "t" "" "claude" none).2.1 (by decide),
   fun h => absurd ((c9_owner_tag 1 "t" "" "claude" none).1.mp h) (by decide)⟩

theorem c10_witness :
    Script.on_page ⟨⟨0, "Helvetica", 12⟩, [], []⟩ ⟨3, [1, 2]⟩ =
      Script.on_page ⟨⟨0, "Helvetica", 12⟩, [], []⟩ ⟨3, []⟩ ∧
    (Script.on_page ⟨⟨0, "Helvetica", 12⟩, [], []⟩ ⟨3, [1, 2]⟩).g =
      ⟨0, "Helvetica", 12⟩ :=
  ⟨(c10_on_page_frame ⟨⟨0, "Helvetica", 12⟩, [], []⟩ ⟨3, [1, 2]⟩).2.2.2 ⟨3, []⟩ rfl,
   (c10_on_page_frame ⟨⟨0, "Helvetica", 12⟩, [], []⟩ ⟨3, [1, 2]⟩).1⟩

end Moltblox
